import Mathlib

/-!
Shallow embedding of the knight's-tour search in `src/main.rs`
(repository `knight_tour_rust`).

Modelling conventions:
* Rust `i8` components are modelled as `Int` (all values arising in the
  search stay well inside the `i8` range, so two's-complement wrap-around
  never occurs on the verified paths).
* The Rust `board: [i8; 64]` array is a `List Int` of length 64, indexed by
  `(coord.0 * 8 + coord.1) as usize`; an out-of-range write is a no-op and an
  out-of-range read yields 0 (the Rust code would panic there; every access
  in the verified statements is in range).
* `Vec<Vec<Coord>>` used as a stack (`push`/`pop`/`last` at the back) is
  modelled with the head of the list as the top of the stack.
* `moves_made` keeps the source order (oldest move first); `Vec::push` is
  list concatenation at the end and `Vec::pop` removes the last element.
* Fallible operations (`expect`, `unwrap`, `assert!`, failing channel sends)
  return `Option` or are reported through an explicit `Fault` value.
-/

/-- `struct Coord(i8, i8)` from the source, with `i8` modelled as `Int`. -/
structure Coord where
  x : Int
  y : Int
  deriving DecidableEq, Repr

instance : Add Coord := ⟨fun a b => ⟨a.x + b.x, a.y + b.y⟩⟩

instance : Sub Coord := ⟨fun a b => ⟨a.x - b.x, a.y - b.y⟩⟩

theorem Coord.add_def (a b : Coord) : a + b = ⟨a.x + b.x, a.y + b.y⟩ := rfl

theorem Coord.sub_def (a b : Coord) : a - b = ⟨a.x - b.x, a.y - b.y⟩ := rfl

/-- The canonical move table built in `Board::new`: all `Coord(i, j)` with
`i, j` drawn from `[1, 2, -1, -2]` and `|i| != |j|`, in the source's
enumeration order. -/
def knightMoves : List Coord :=
  let combs : List Int := [1, 2, -1, -2]
  (combs.flatMap (fun i => combs.map (fun j => Coord.mk i j))).filter
    (fun c => c.x.natAbs ≠ c.y.natAbs)

/-- `struct Board` from the source.  `moves_to_make` is the per-depth
candidate stack with the head of the list as the top of the stack
(the back of the Rust `Vec`). -/
structure Board where
  moves_made : List Coord
  current : Coord
  moves_to_make : List (List Coord)
  board : List Int
  moves : List Coord
  deriving DecidableEq, Repr

namespace Board

/-- `fn index_of(coord: Coord) -> usize` : `(coord.0 * 8 + coord.1) as usize`. -/
def index_of (c : Coord) : Nat := (c.x * 8 + c.y).toNat

/-- `pub fn value_at(&self, coord: Coord) -> i8`. -/
def value_at (b : Board) (c : Coord) : Int := b.board.getD (index_of c) 0

/-- `pub fn set_value_at(&mut self, coord: Coord, val: i8)`. -/
def set_value_at (b : Board) (c : Coord) (v : Int) : Board :=
  { b with board := b.board.set (index_of c) v }

/-- `pub fn is_on_board(c: Coord) -> bool`. -/
def is_on_board (c : Coord) : Bool :=
  0 ≤ c.x && c.x < 8 && 0 ≤ c.y && c.y < 8

/-- `pub fn can_move(&self, c: Coord) -> bool`. -/
def can_move (b : Board) (c : Coord) : Bool := b.value_at c == 0

/-- `pub fn available_moves(&self) -> Vec<Coord>`. -/
def available_moves (b : Board) : List Coord :=
  b.moves.filter (fun m => is_on_board (b.current + m) && b.can_move (b.current + m))

/-- `pub fn new() -> Board`. -/
def new : Board :=
  let ret : Board :=
    { moves_made := []
      current := ⟨0, 0⟩
      moves_to_make := []
      board := List.replicate 64 0
      moves := knightMoves }
  { ret with moves_to_make := [ret.available_moves] }

/-- `pub fn make_move(&mut self, c: Coord)` : advance `current`, append the
offset to the history and mark the new cell with the new history length. -/
def make_move (b : Board) (c : Coord) : Board :=
  let cur := b.current + c
  let mm := b.moves_made ++ [c]
  { b with
      current := cur
      moves_made := mm
      board := (b.board.set (index_of cur) (mm.length : Int)) }

/-- `pub fn rollback(&mut self)` : clear the current cell, pop the last
history entry and subtract it from `current`.  `none` models the
`expect("Logic error")` panic on an empty history. -/
def rollback (b : Board) : Option Board :=
  match b.moves_made.getLast? with
  | none => none
  | some rb =>
      some { b with
               board := b.board.set (index_of b.current) 0
               moves_made := b.moves_made.dropLast
               current := b.current - rb }

/-- The simulation loop inside `apply_best_move`: for each enumerated
candidate, apply it, count the resulting mobility, undo, and keep the
strictly better `(move, mobility, index)` triple (first-seen wins ties).
The board is threaded exactly as the Rust `self` is. -/
def bestFold : List (Nat × Coord) → Board → Option (Coord × Nat × Nat) →
    Option (Coord × Nat × Nat) × Board
  | [], b, best => (best, b)
  | (i, mv) :: rest, b, best =>
      let b1 := b.make_move mv
      let newLen := b1.available_moves.length
      let b2 := (b1.rollback).getD b1
      let best' :=
        match best with
        | none => some (mv, newLen, i)
        | some (_, bestLen, _) =>
            if newLen < bestLen then some (mv, newLen, i) else best
      bestFold rest b2 best'

/-- `pub fn apply_best_move(&mut self)`.  `none` models the panics of
`last().unwrap()` / `assert!(best.is_some())` (empty stack or empty top
candidate list). -/
def apply_best_move (b : Board) : Option Board :=
  match b.moves_to_make with
  | [] => none
  | top :: _ =>
      match (bestFold top.enum b none) with
      | (none, _) => none
      | (some (c, _, idx), bAfter) =>
          let b2 := bAfter.make_move c
          match b2.moves_to_make with
          | [] => none
          | top2 :: rest2 =>
              let b3 := { b2 with moves_to_make := (top2.eraseIdx idx) :: rest2 }
              some { b3 with moves_to_make := b3.available_moves :: b3.moves_to_make }

/-- `enum Mutation`. -/
inductive Mutation where
  | Move
  | Rollback
  | Stop
  deriving DecidableEq, Repr

/-- `pub fn get_action(&self) -> Mutation`. -/
def get_action (b : Board) : Mutation :=
  match b.moves_to_make with
  | [] => .Stop
  | v :: _ => if v.isEmpty then .Rollback else .Move

/-- `pub fn is_closed_tour(&self) -> bool`.  `none` models the panic of
`moves_made.first().unwrap()` on an empty history. -/
def is_closed_tour (b : Board) : Option Bool :=
  match b.moves_made.head? with
  | none => none
  | some f => some (b.moves.any (fun m => b.current + m == f))

end Board

/-- The distinct ways one iteration of `do_loop` can fail (each is a Rust
panic site in the source). -/
inductive Fault where
  | rollbackEmpty
  | closedTourEmpty
  | sendFail
  | bestEmpty
  deriving DecidableEq, Repr

/-- Result of one iteration of the `loop` in `do_loop`. -/
inductive StepRes where
  | stopped
  | fault (f : Fault)
  | next (em : Option (List Coord)) (b : Board)
  deriving DecidableEq, Repr

/-- One iteration of `pub fn do_loop(&mut self, sender: Sender<Vec<Coord>>)`.
`sendOk` tells whether the channel send succeeds (the receiver is alive);
the source calls `.unwrap()` on the send result, so a failed send is a
panic, modelled as `Fault.sendFail`. -/
def step (sendOk : Bool) (b : Board) : StepRes :=
  match b.get_action with
  | .Move =>
      match b.apply_best_move with
      | none => .fault .bestEmpty
      | some b' =>
          if b'.moves_made.length = 64 then
            match b'.is_closed_tour with
            | none => .fault .closedTourEmpty
            | some closed =>
                if closed then
                  if sendOk then .next (some b'.moves_made) b'
                  else .fault .sendFail
                else .next none b'
          else .next none b'
  | .Rollback =>
      match b.rollback with
      | none => .fault .rollbackEmpty
      | some b' => .next none { b' with moves_to_make := b'.moves_to_make.tail }
  | .Stop => .stopped

/-- The board after at most `n` iterations of `do_loop` (stopping early at
`break`); `Except.error` reports the first panic encountered. -/
def iterB (sendOk : Bool) : Nat → Board → Except Fault Board
  | 0, b => .ok b
  | n + 1, b =>
      match step sendOk b with
      | .stopped => .ok b
      | .fault f => .error f
      | .next _ b' => iterB sendOk n b'

/-- The tours sent on the output channel during the first `n` iterations of
`do_loop`. -/
def emitted (sendOk : Bool) : Nat → Board → List (List Coord)
  | 0, _ => []
  | n + 1, b =>
      match step sendOk b with
      | .stopped => []
      | .fault _ => []
      | .next em b' => em.toList ++ emitted sendOk n b'

/-- Absolute coordinates after each move of a path, starting from `p`
(the receiver-side cumulative summation of the emitted offsets). -/
def positions (p : Coord) : List Coord → List Coord
  | [] => []
  | c :: rest => (p + c) :: positions (p + c) rest

/-- End position of a path starting at `p`. -/
def endPos (p : Coord) (l : List Coord) : Coord := l.foldl (· + ·) p

/-- The absolute squares visited by a board's history, oldest first. -/
def posList (b : Board) : List Coord := positions ⟨0, 0⟩ b.moves_made

/-- Position of the knight after the first `d` moves of a history. -/
def depthPos (mm : List Coord) (d : Nat) : Coord := endPos ⟨0, 0⟩ (mm.take d)

/-- The board coordinate stored at linear cell index `i` (inverse of
`Board.index_of` on the 64 on-board cells). -/
def coordOf (i : Nat) : Coord := ⟨(i : Int) / 8, (i : Int) % 8⟩

/-- Visit order of `c` in the list of visited squares, counting from `k`;
0 when `c` is not visited. -/
def markFrom (k : Int) : List Coord → Coord → Int
  | [], _ => 0
  | p :: rest, c => if c = p then k else markFrom (k + 1) rest c

/-- 1-based visit order of `c` (0 when unvisited). -/
def markOf (ps : List Coord) (c : Coord) : Int := markFrom 1 ps c

/-- The 64-cell array holding the visit orders of the squares in `ps`. -/
def boardOf (ps : List Coord) : List Int :=
  (List.range 64).map (fun i => markOf ps (coordOf i))

/-- Number of onward moves available after playing `c` (the Warnsdorff
score that `apply_best_move` minimises). -/
def mobility (b : Board) (c : Coord) : Nat :=
  ((b.make_move c).available_moves).length

/-- The pure content of the selection loop in `apply_best_move`: same
accumulator updates as `bestFold`, with the mobility of each candidate
measured on the unchanged board `b` (the simulation restores `b` exactly). -/
def bestAcc (b : Board) : List (Nat × Coord) → Option (Coord × Nat × Nat) →
    Option (Coord × Nat × Nat)
  | [], acc => acc
  | (i, mv) :: rest, acc =>
      let newLen := mobility b mv
      let acc' :=
        match acc with
        | none => some (mv, newLen, i)
        | some (_, bestLen, _) =>
            if newLen < bestLen then some (mv, newLen, i) else acc
      bestAcc b rest acc'

/-- Invariant of every board reachable by the search loop: the move table is
canonical, the candidate stack is one deeper than the history, `current`
is the running sum of the history, all applied offsets are knight moves,
the visited squares are distinct and on-board, the grid holds exactly their
visit orders, and every stashed candidate at depth `d` is a knight offset
leading from the depth-`d` position to an on-board square unvisited at
depth `d`. -/
def InvB (b : Board) : Prop :=
  b.moves = knightMoves
  ∧ b.moves_to_make.length = b.moves_made.length + 1
  ∧ b.current = endPos ⟨0, 0⟩ b.moves_made
  ∧ (∀ c ∈ b.moves_made, c ∈ knightMoves)
  ∧ (posList b).Nodup
  ∧ (∀ p ∈ posList b, Board.is_on_board p = true)
  ∧ b.board = boardOf (posList b)
  ∧ (∀ k, k < b.moves_to_make.length → ∀ c ∈ b.moves_to_make.getD k [],
      c ∈ knightMoves
      ∧ Board.is_on_board (depthPos b.moves_made (b.moves_made.length - k) + c) = true
      ∧ depthPos b.moves_made (b.moves_made.length - k) + c ∉
          (posList b).take (b.moves_made.length - k))

instance (b : Board) : Decidable (InvB b) := by
  unfold InvB
  infer_instance

/-- Weighted size of the candidate stack (`d` is the depth of the head
level); every `Move` strictly shrinks it and a `Rollback` leaves it
unchanged. -/
def stackMeasure : List (List Coord) → Nat → Nat
  | [], _ => 0
  | L :: rest, d => L.length * 9 ^ (64 - d) + stackMeasure rest (d - 1)

/-- Termination measure of the search loop: lexicographic combination of the
weighted stack size and the stack height. -/
def measureB (b : Board) : Nat :=
  65 * stackMeasure b.moves_to_make b.moves_made.length + b.moves_to_make.length

/-- The first tour the search sends on the channel (it is emitted on loop
iteration 80). -/
def tour0 : List Coord :=
  [⟨1, 2⟩, ⟨-1, -2⟩, ⟨2, 1⟩, ⟨2, -1⟩, ⟨2, 1⟩, ⟨1, 2⟩, ⟨-1, 2⟩, ⟨1, 2⟩,
   ⟨-2, -1⟩, ⟨2, -1⟩, ⟨-1, 2⟩, ⟨-2, -1⟩, ⟨-2, 1⟩, ⟨-2, -1⟩, ⟨1, -2⟩,
   ⟨-1, -2⟩, ⟨1, -2⟩, ⟨2, 1⟩, ⟨2, -1⟩, ⟨2, 1⟩, ⟨-1, 2⟩, ⟨-2, -1⟩, ⟨-1, -2⟩,
   ⟨-2, 1⟩, ⟨-1, 2⟩, ⟨1, 2⟩, ⟨-1, 2⟩, ⟨2, -1⟩, ⟨2, 1⟩, ⟨2, -1⟩, ⟨1, -2⟩,
   ⟨-1, -2⟩, ⟨1, -2⟩, ⟨-2, 1⟩, ⟨2, 1⟩, ⟨-1, -2⟩, ⟨-1, 2⟩, ⟨1, 2⟩, ⟨1, 2⟩,
   ⟨-2, 1⟩, ⟨-1, -2⟩, ⟨-1, 2⟩, ⟨-2, -1⟩, ⟨-1, -2⟩, ⟨2, -1⟩, ⟨1, 2⟩, ⟨2, -1⟩,
   ⟨-2, -1⟩, ⟨1, -2⟩, ⟨1, 2⟩, ⟨-2, 1⟩, ⟨2, 1⟩, ⟨-1, -2⟩, ⟨-2, -1⟩, ⟨-2, -1⟩,
   ⟨2, -1⟩, ⟨1, 2⟩, ⟨1, 2⟩, ⟨-1, 2⟩, ⟨-2, 1⟩, ⟨1, -2⟩, ⟨-1, -2⟩, ⟨-1, 2⟩,
   ⟨2, -1⟩]

/-- A board holding a genuine, legally played 64-move history (the first
tour the search emits), used as a concrete full-tour board. -/
def bc : Board := tour0.foldl Board.make_move Board.new

/-- A board one legal move away from completing the first closed tour, with
exactly that closing move as the only remaining candidate: the next loop
iteration emits the finished tour. -/
def cSend : Board :=
  { (tour0.take 63).foldl Board.make_move Board.new with
      moves_to_make := [[⟨2, -1⟩]] }

/-! ### Basic lemmas -/

theorem Coord.add_sub_cancel (a c : Coord) : a + c - c = a := by
  cases a; cases c
  simp [Coord.add_def, Coord.sub_def]

theorem List.set_of_getD_eq {l : List Int} {i : Nat} {v : Int}
    (h : l.getD i 0 = v) : l.set i v = l := by
  induction l generalizing i with
  | nil => rfl
  | cons a t ih =>
      cases i with
      | zero => simp_all [List.getD]
      | succ j =>
          simp only [List.getD_cons_succ] at h
          simp [List.set, ih h]

theorem endPos_append (p : Coord) (l₁ l₂ : List Coord) :
    endPos p (l₁ ++ l₂) = endPos (endPos p l₁) l₂ := by
  simp [endPos, List.foldl_append]

theorem endPos_concat (p : Coord) (l : List Coord) (c : Coord) :
    endPos p (l ++ [c]) = endPos p l + c := by
  simp [endPos, List.foldl_append]

theorem positions_length (p : Coord) (l : List Coord) :
    (positions p l).length = l.length := by
  induction l generalizing p with
  | nil => rfl
  | cons c t ih => simp [positions, ih]

theorem positions_concat (p : Coord) (l : List Coord) (c : Coord) :
    positions p (l ++ [c]) = positions p l ++ [endPos p l + c] := by
  induction l generalizing p with
  | nil => simp [positions, endPos]
  | cons a t ih =>
      simp only [List.cons_append, positions, List.append_eq]
      rw [ih]
      rfl

theorem positions_take (p : Coord) (l : List Coord) (d : Nat) :
    positions p (l.take d) = (positions p l).take d := by
  induction l generalizing p d with
  | nil => simp [positions]
  | cons a t ih =>
      cases d with
      | zero => simp [positions]
      | succ e => simp [positions, ih]

theorem positions_getLast?_concat (p : Coord) (l : List Coord) (c : Coord) :
    (positions p (l ++ [c])).getLast? = some (endPos p (l ++ [c])) := by
  rw [positions_concat, endPos_concat, List.getLast?_concat]

theorem endPos_take_succ (p : Coord) (l : List Coord) (d : Nat) (hd : d < l.length) :
    endPos p (l.take (d + 1)) = endPos p (l.take d) + l.getD d ⟨0, 0⟩ := by
  rw [List.take_succ]
  have : l[d]? = some (l.getD d ⟨0, 0⟩) := by
    rw [List.getD_eq_getElem l ⟨0, 0⟩ hd, List.getElem?_eq_getElem hd]
  rw [this]
  simp [endPos_concat]

/-! ### `coordOf` / `index_of` bijection on the 64 cells -/

theorem index_of_lt_64 {c : Coord} (h : Board.is_on_board c = true) :
    Board.index_of c < 64 := by
  simp only [Board.is_on_board, Bool.and_eq_true, decide_eq_true_eq] at h
  obtain ⟨⟨⟨hx0, hx8⟩, hy0⟩, hy8⟩ := h
  have : c.x * 8 + c.y < 64 := by omega
  have h0 : 0 ≤ c.x * 8 + c.y := by omega
  simp only [Board.index_of]
  omega

theorem coordOf_index_of {c : Coord} (h : Board.is_on_board c = true) :
    coordOf (Board.index_of c) = c := by
  simp only [Board.is_on_board, Bool.and_eq_true, decide_eq_true_eq] at h
  obtain ⟨⟨⟨hx0, hx8⟩, hy0⟩, hy8⟩ := h
  have h0 : 0 ≤ c.x * 8 + c.y := by omega
  simp only [coordOf, Board.index_of]
  have hcast : ((c.x * 8 + c.y).toNat : Int) = c.x * 8 + c.y := Int.toNat_of_nonneg h0
  cases c with
  | mk cx cy =>
      simp only at hx0 hx8 hy0 hy8 h0 hcast ⊢
      congr 1
      · rw [hcast]
        omega
      · rw [hcast]
        omega

theorem index_of_coordOf {i : Nat} (h : i < 64) :
    Board.index_of (coordOf i) = i := by
  simp only [coordOf, Board.index_of]
  omega

theorem coordOf_on_board {i : Nat} (h : i < 64) :
    Board.is_on_board (coordOf i) = true := by
  simp only [coordOf, Board.is_on_board, Bool.and_eq_true, decide_eq_true_eq]
  have hi : (i : Int) < 64 := by omega
  have hi0 : (0:Int) ≤ (i : Int) := by omega
  refine ⟨⟨⟨?_, ?_⟩, ?_⟩, ?_⟩ <;> omega

theorem index_of_inj {c d : Coord} (hc : Board.is_on_board c = true)
    (hd : Board.is_on_board d = true) (h : Board.index_of c = Board.index_of d) :
    c = d := by
  have := coordOf_index_of hc
  rw [h, coordOf_index_of hd] at this
  exact this.symm

/-! ### Visit-order (`markOf`) and grid (`boardOf`) lemmas -/

theorem markFrom_append (k : Int) (l : List Coord) (p c : Coord) :
    markFrom k (l ++ [p]) c =
      if c ∈ l then markFrom k l c else (if c = p then k + l.length else 0) := by
  induction l generalizing k with
  | nil => simp [markFrom]
  | cons a t ih =>
      by_cases hca : c = a
      · subst hca
        simp [markFrom]
      · have hLHS : markFrom k ((a :: t) ++ [p]) c = markFrom (k + 1) (t ++ [p]) c := by
          simp [markFrom, hca]
        rw [hLHS, ih (k + 1)]
        by_cases hct : c ∈ t
        · rw [if_pos hct, if_pos (by simp [hct] : c ∈ a :: t)]
          simp [markFrom, hca]
        · rw [if_neg hct, if_neg (by simp [hca, hct] : ¬ c ∈ a :: t)]
          by_cases hcp : c = p
          · rw [if_pos hcp, if_pos hcp, List.length_cons]
            push_cast
            ring
          · rw [if_neg hcp, if_neg hcp]

theorem markFrom_eq_zero_iff {k : Int} (hk : 0 < k) (l : List Coord) (c : Coord) :
    markFrom k l c = 0 ↔ c ∉ l := by
  induction l generalizing k with
  | nil => simp [markFrom]
  | cons a t ih =>
      by_cases hca : c = a
      · subst hca
        simp [markFrom]
        omega
      · simp [markFrom, hca, ih (by omega : (0:Int) < k + 1)]

theorem markOf_eq_zero_iff (ps : List Coord) (c : Coord) :
    markOf ps c = 0 ↔ c ∉ ps :=
  markFrom_eq_zero_iff (by omega) ps c

theorem markOf_concat_self {ps : List Coord} {p : Coord} (h : p ∉ ps) :
    markOf (ps ++ [p]) p = (ps.length : Int) + 1 := by
  rw [markOf, markFrom_append, if_neg h, if_pos rfl]
  ring

theorem markOf_concat_ne {ps : List Coord} {p c : Coord} (h : c ≠ p) :
    markOf (ps ++ [p]) c = markOf ps c := by
  rw [markOf, markFrom_append]
  by_cases hc : c ∈ ps
  · simp [hc, markOf]
  · rw [if_neg hc, if_neg h, markOf, eq_comm]
    exact (markFrom_eq_zero_iff (by omega) ps c).mpr hc

theorem markFrom_getD {l : List Coord} (hl : l.Nodup) {j : Nat} (hj : j < l.length)
    (k : Int) : markFrom k l (l.getD j ⟨0, 0⟩) = k + j := by
  induction l generalizing k j with
  | nil => simp at hj
  | cons a t ih =>
      obtain ⟨ha, ht⟩ := List.nodup_cons.mp hl
      cases j with
      | zero => simp [markFrom]
      | succ i =>
          have hi : i < t.length := by simpa using hj
          have hmem : t.getD i ⟨0, 0⟩ ∈ t := by
            rw [List.getD_eq_getElem _ _ hi]
            exact List.getElem_mem hi
          have hne : t.getD i ⟨0, 0⟩ ≠ a := fun hcontra => ha (hcontra ▸ hmem)
          simp only [List.getD_cons_succ, markFrom, if_neg hne]
          rw [ih ht hi]
          push_cast
          ring

theorem markOf_getD {l : List Coord} (hl : l.Nodup) {j : Nat} (hj : j < l.length) :
    markOf l (l.getD j ⟨0, 0⟩) = (j : Int) + 1 := by
  rw [markOf, markFrom_getD hl hj]
  ring

theorem boardOf_length (ps : List Coord) : (boardOf ps).length = 64 := by
  simp [boardOf]

theorem getD_boardOf (ps : List Coord) {p : Coord} (h : Board.is_on_board p = true) :
    (boardOf ps).getD (Board.index_of p) 0 = markOf ps p := by
  have h64 := index_of_lt_64 h
  have hlen : Board.index_of p < (boardOf ps).length := by
    rw [boardOf_length]; exact h64
  rw [List.getD_eq_getElem _ _ hlen]
  simp only [boardOf, List.getElem_map, List.getElem_range]
  rw [coordOf_index_of h]

theorem boardOf_concat {ps : List Coord} {p : Coord} (h : Board.is_on_board p = true)
    (hnp : p ∉ ps) :
    boardOf (ps ++ [p]) = (boardOf ps).set (Board.index_of p) ((ps.length : Int) + 1) := by
  have h64 := index_of_lt_64 h
  apply List.ext_getElem
  · simp [boardOf_length]
  · intro i hi hi2
    have hi64 : i < 64 := by
      have := boardOf_length (ps ++ [p])
      omega
    simp only [boardOf, List.getElem_map, List.getElem_range]
    rw [List.getElem_set]
    by_cases hip : Board.index_of p = i
    · have : coordOf i = p := by
        rw [← hip, coordOf_index_of h]
      rw [if_pos hip, this, markOf_concat_self hnp]
    · have : coordOf i ≠ p := by
        intro hcontra
        apply hip
        rw [← hcontra, index_of_coordOf hi64]
      rw [if_neg hip, markOf_concat_ne this]
      simp [boardOf]

theorem set_boardOf_concat_zero {ps : List Coord} {p : Coord}
    (h : Board.is_on_board p = true) (hnp : p ∉ ps) :
    (boardOf (ps ++ [p])).set (Board.index_of p) 0 = boardOf ps := by
  rw [boardOf_concat h hnp, List.set_set]
  apply List.set_of_getD_eq
  rw [getD_boardOf ps h]
  exact (markOf_eq_zero_iff ps p).mpr hnp

/-! ### `make_move` / `rollback` lemmas -/

theorem make_move_moves_to_make (b : Board) (c : Coord) :
    (b.make_move c).moves_to_make = b.moves_to_make := rfl

theorem make_move_moves (b : Board) (c : Coord) :
    (b.make_move c).moves = b.moves := rfl

theorem make_move_current (b : Board) (c : Coord) :
    (b.make_move c).current = b.current + c := rfl

theorem make_move_moves_made (b : Board) (c : Coord) :
    (b.make_move c).moves_made = b.moves_made ++ [c] := rfl

theorem make_move_board (b : Board) (c : Coord) :
    (b.make_move c).board =
      b.board.set (Board.index_of (b.current + c)) ((b.moves_made.length : Int) + 1) := by
  simp [Board.make_move]

/-- Undoing a move restores the exact previous state, provided the move's
target cell was unvisited. -/
theorem rollback_make_move {b : Board} {c : Coord}
    (h : b.value_at (b.current + c) = 0) :
    (b.make_move c).rollback = some b := by
  cases b with
  | mk mm cur mtm bd mv =>
      simp only [Board.value_at] at h
      simp only [Board.make_move, Board.rollback, List.getLast?_concat, Option.some.injEq]
      have hboard :
          ((bd.set (Board.index_of (cur + c)) ((mm ++ [c]).length : Int)).set
            (Board.index_of (cur + c)) 0) = bd := by
        rw [List.set_set]
        exact List.set_of_getD_eq h
      simp only [Board.mk.injEq]
      exact ⟨List.dropLast_concat .., Coord.add_sub_cancel cur c, trivial, hboard, trivial⟩

/-! ### The selection loop of `apply_best_move` -/

theorem mem_enumFrom_snd {α : Type} {p : Nat × α} :
    ∀ {l : List α} {s : Nat}, p ∈ List.enumFrom s l → p.2 ∈ l := by
  intro l
  induction l with
  | nil => intro s h; simp [List.enumFrom] at h
  | cons a t ih =>
      intro s h
      simp only [List.enumFrom, List.mem_cons] at h
      rcases h with h | h
      · subst h; simp
      · exact List.mem_cons_of_mem a (ih h)

/-- The Rust `for` loop threads `self` through apply/undo pairs; when every
candidate's target is unvisited the board comes back unchanged and the
accumulator is the pure fold. -/
theorem bestFold_eq (b : Board) :
    ∀ (pairs : List (Nat × Coord)) (acc : Option (Coord × Nat × Nat)),
    (∀ pc ∈ pairs, b.value_at (b.current + pc.2) = 0) →
    Board.bestFold pairs b acc = (bestAcc b pairs acc, b) := by
  intro pairs
  induction pairs with
  | nil => intro acc h; rfl
  | cons pc rest ih =>
      intro acc h
      obtain ⟨i, mv⟩ := pc
      have hmv : b.value_at (b.current + mv) = 0 := h (i, mv) (by simp)
      have hrest : ∀ pc ∈ rest, b.value_at (b.current + pc.2) = 0 :=
        fun pc hpc => h pc (List.mem_cons_of_mem _ hpc)
      simp only [Board.bestFold, bestAcc, rollback_make_move hmv, Option.getD_some]
      exact ih _ hrest

/-- Running the accumulator from `some (c0, m0, i0)`: either no later
candidate strictly improves on `m0` and the accumulator is kept, or the
result is the first candidate attaining the strict minimum among the
remaining ones. -/
theorem bestAcc_some (b : Board) :
    ∀ (t : List Coord) (s : Nat) (c0 : Coord) (m0 i0 : Nat),
    ((∀ k, k < t.length → m0 ≤ mobility b (t.getD k ⟨0, 0⟩)) ∧
      bestAcc b (List.enumFrom s t) (some (c0, m0, i0)) = some (c0, m0, i0))
    ∨ (∃ j, j < t.length ∧
        mobility b (t.getD j ⟨0, 0⟩) < m0 ∧
        (∀ k, k < t.length →
          mobility b (t.getD j ⟨0, 0⟩) ≤ mobility b (t.getD k ⟨0, 0⟩)) ∧
        (∀ k, k < j →
          mobility b (t.getD j ⟨0, 0⟩) < mobility b (t.getD k ⟨0, 0⟩)) ∧
        bestAcc b (List.enumFrom s t) (some (c0, m0, i0)) =
          some (t.getD j ⟨0, 0⟩, mobility b (t.getD j ⟨0, 0⟩), s + j)) := by
  intro t
  induction t with
  | nil =>
      intro s c0 m0 i0
      left
      exact ⟨fun k hk => by simp at hk, rfl⟩
  | cons a t' ih =>
      intro s c0 m0 i0
      by_cases hlt : mobility b a < m0
      · -- the head strictly improves: accumulator becomes (a, mob a, s)
        have hstep :
            bestAcc b (List.enumFrom s (a :: t')) (some (c0, m0, i0)) =
              bestAcc b (List.enumFrom (s + 1) t') (some (a, mobility b a, s)) := by
          simp [List.enumFrom, bestAcc, hlt]
        rcases ih (s + 1) a (mobility b a) s with ⟨hkeep, heq⟩ | ⟨j, hj, himp, hmin, hfirst, heq⟩
        · right
          refine ⟨0, by simp, by simpa using hlt, ?_, ?_, ?_⟩
          · intro k hk
            cases k with
            | zero => simp
            | succ k' =>
                have : k' < t'.length := by simpa using hk
                simpa using hkeep k' this
          · intro k hk
            omega
          · rw [hstep, heq]
            simp
        · right
          refine ⟨j + 1, by simpa using hj, ?_, ?_, ?_, ?_⟩
          · simpa using lt_trans himp hlt
          · intro k hk
            cases k with
            | zero => simpa using le_of_lt himp
            | succ k' =>
                have : k' < t'.length := by simpa using hk
                simpa using hmin k' this
          · intro k hk
            cases k with
            | zero => simpa using himp
            | succ k' =>
                have : k' < j := by omega
                simpa using hfirst k' this
          · rw [hstep, heq]
            simp only [List.getD_cons_succ]
            have hsj : s + 1 + j = s + (j + 1) := by omega
            rw [hsj]
      · -- the head does not improve: accumulator is kept for this element
        have hstep :
            bestAcc b (List.enumFrom s (a :: t')) (some (c0, m0, i0)) =
              bestAcc b (List.enumFrom (s + 1) t') (some (c0, m0, i0)) := by
          simp [List.enumFrom, bestAcc, hlt]
        rcases ih (s + 1) c0 m0 i0 with ⟨hkeep, heq⟩ | ⟨j, hj, himp, hmin, hfirst, heq⟩
        · left
          refine ⟨?_, by rw [hstep, heq]⟩
          intro k hk
          cases k with
          | zero => simpa using le_of_not_lt hlt
          | succ k' =>
              have : k' < t'.length := by simpa using hk
              simpa using hkeep k' this
        · right
          refine ⟨j + 1, by simpa using hj, by simpa using himp, ?_, ?_, ?_⟩
          · intro k hk
            cases k with
            | zero =>
                have : mobility b (t'.getD j ⟨0, 0⟩) < mobility b a :=
                  lt_of_lt_of_le himp (le_of_not_lt hlt)
                simpa using le_of_lt this
            | succ k' =>
                have : k' < t'.length := by simpa using hk
                simpa using hmin k' this
          · intro k hk
            cases k with
            | zero =>
                simpa using lt_of_lt_of_le himp (le_of_not_lt hlt)
            | succ k' =>
                have : k' < j := by omega
                simpa using hfirst k' this
          · rw [hstep, heq]
            simp only [List.getD_cons_succ]
            have hsj : s + 1 + j = s + (j + 1) := by omega
            rw [hsj]

/-- Starting from `none` on a non-empty candidate list, the selection loop
returns the first candidate of strictly minimal mobility, together with its
enumeration index. -/
theorem bestAcc_none (b : Board) (t : List Coord) (hne : t ≠ []) :
    ∃ j, j < t.length ∧
      (∀ k, k < t.length →
        mobility b (t.getD j ⟨0, 0⟩) ≤ mobility b (t.getD k ⟨0, 0⟩)) ∧
      (∀ k, k < j →
        mobility b (t.getD j ⟨0, 0⟩) < mobility b (t.getD k ⟨0, 0⟩)) ∧
      bestAcc b (List.enumFrom 0 t) none =
        some (t.getD j ⟨0, 0⟩, mobility b (t.getD j ⟨0, 0⟩), j) := by
  cases t with
  | nil => exact absurd rfl hne
  | cons a t' =>
      have hstep :
          bestAcc b (List.enumFrom 0 (a :: t')) none =
            bestAcc b (List.enumFrom 1 t') (some (a, mobility b a, 0)) := by
        simp [List.enumFrom, bestAcc]
      rcases bestAcc_some b t' 1 a (mobility b a) 0 with ⟨hkeep, heq⟩ | ⟨j, hj, himp, hmin, hfirst, heq⟩
      · refine ⟨0, by simp, ?_, fun k hk => absurd hk (by omega), ?_⟩
        · intro k hk
          cases k with
          | zero => simp
          | succ k' =>
              have : k' < t'.length := by simpa using hk
              simpa using hkeep k' this
        · rw [hstep, heq]
          simp
      · refine ⟨j + 1, by simpa using hj, ?_, ?_, ?_⟩
        · intro k hk
          cases k with
          | zero => simpa using le_of_lt himp
          | succ k' =>
              have : k' < t'.length := by simpa using hk
              simpa using hmin k' this
        · intro k hk
          cases k with
          | zero => simpa using himp
          | succ k' =>
              have : k' < j := by omega
              simpa using hfirst k' this
        · rw [hstep, heq]
          simp only [List.getD_cons_succ]
          have hsj : 1 + j = j + 1 := by omega
          rw [hsj]

/-- Structure of a successful `apply_best_move`: with a non-empty top
candidate list whose candidates all target unvisited cells, it permanently
applies the first candidate of strictly minimal post-move mobility, removes
it from the top list by its original index, and pushes the fresh candidate
list of the new position. -/
theorem apply_best_move_eq {b : Board} {top : List Coord} {rest : List (List Coord)}
    (hstack : b.moves_to_make = top :: rest) (hne : top ≠ [])
    (hfresh : ∀ c ∈ top, b.value_at (b.current + c) = 0) :
    ∃ idx, idx < top.length ∧
      (∀ k, k < top.length →
        mobility b (top.getD idx ⟨0, 0⟩) ≤ mobility b (top.getD k ⟨0, 0⟩)) ∧
      (∀ k, k < idx →
        mobility b (top.getD idx ⟨0, 0⟩) < mobility b (top.getD k ⟨0, 0⟩)) ∧
      b.apply_best_move = some
        { b.make_move (top.getD idx ⟨0, 0⟩) with
            moves_to_make :=
              (b.make_move (top.getD idx ⟨0, 0⟩)).available_moves
                :: top.eraseIdx idx :: rest } := by
  obtain ⟨j, hj, hmin, hfirst, heq⟩ := bestAcc_none b top hne
  refine ⟨j, hj, hmin, hfirst, ?_⟩
  have hfold : Board.bestFold top.enum b none = (bestAcc b top.enum none, b) := by
    apply bestFold_eq
    intro pc hpc
    exact hfresh pc.2 (mem_enumFrom_snd hpc)
  have henum : (top.enum : List (Nat × Coord)) = List.enumFrom 0 top := rfl
  obtain ⟨mm, cur, mtm, bd, mv⟩ := b
  simp only at hstack
  subst hstack
  simp only [Board.apply_best_move]
  rw [hfold, henum, heq]
  rfl

/-! ### Bridges between the grid and the visited-squares list -/

theorem value_at_markOf {b : Board} {ps : List Coord} (h7 : b.board = boardOf ps)
    {c : Coord} (hc : Board.is_on_board c = true) :
    b.value_at c = markOf ps c := by
  rw [Board.value_at, h7]
  exact getD_boardOf ps hc

theorem can_move_iff {b : Board} {ps : List Coord} (h7 : b.board = boardOf ps)
    {c : Coord} (hc : Board.is_on_board c = true) :
    b.can_move c = true ↔ c ∉ ps := by
  rw [Board.can_move, value_at_markOf h7 hc]
  rw [beq_iff_eq]
  exact markOf_eq_zero_iff ps c

theorem mem_available_moves {b : Board} {c : Coord} :
    c ∈ b.available_moves ↔
      c ∈ b.moves ∧ Board.is_on_board (b.current + c) = true ∧
        b.can_move (b.current + c) = true := by
  simp [Board.available_moves, List.mem_filter, Bool.and_eq_true, and_assoc]

theorem available_moves_length_le {b : Board} (h : b.moves = knightMoves) :
    b.available_moves.length ≤ 8 := by
  have : b.available_moves.length ≤ b.moves.length := List.length_filter_le ..
  rw [h] at this
  exact this

theorem posList_length_le_64 {ps : List Coord} (hnd : ps.Nodup)
    (hob : ∀ p ∈ ps, Board.is_on_board p = true) : ps.length ≤ 64 := by
  have hnd2 : (ps.map Board.index_of).Nodup := by
    refine List.Nodup.map_on ?_ hnd
    intro x hx y hy hxy
    exact index_of_inj (hob x hx) (hob y hy) hxy
  have hsub : (ps.map Board.index_of).toFinset ⊆ Finset.range 64 := by
    intro i hi
    simp only [List.mem_toFinset, List.mem_map] at hi
    obtain ⟨p, hp, rfl⟩ := hi
    simp only [Finset.mem_range]
    exact index_of_lt_64 (hob p hp)
  calc ps.length = (ps.map Board.index_of).length := (List.length_map ..).symm
    _ = (ps.map Board.index_of).toFinset.card := (List.toFinset_card_of_nodup hnd2).symm
    _ ≤ (Finset.range 64).card := Finset.card_le_card hsub
    _ = 64 := Finset.card_range 64

/-- With 64 distinct visited on-board squares, every on-board square is
visited. -/
theorem mem_of_sixtyfour {ps : List Coord} (hnd : ps.Nodup)
    (hob : ∀ p ∈ ps, Board.is_on_board p = true) (hlen : ps.length = 64)
    {c : Coord} (hc : Board.is_on_board c = true) : c ∈ ps := by
  have hnd2 : (ps.map Board.index_of).Nodup := by
    refine List.Nodup.map_on ?_ hnd
    intro x hx y hy hxy
    exact index_of_inj (hob x hx) (hob y hy) hxy
  have hsub : (ps.map Board.index_of).toFinset ⊆ Finset.range 64 := by
    intro i hi
    simp only [List.mem_toFinset, List.mem_map] at hi
    obtain ⟨p, hp, rfl⟩ := hi
    simp only [Finset.mem_range]
    exact index_of_lt_64 (hob p hp)
  have hcard : (ps.map Board.index_of).toFinset.card = 64 := by
    rw [List.toFinset_card_of_nodup hnd2, List.length_map, hlen]
  have heq : (ps.map Board.index_of).toFinset = Finset.range 64 :=
    Finset.eq_of_subset_of_card_le hsub (by rw [hcard, Finset.card_range])
  have hmem : Board.index_of c ∈ (ps.map Board.index_of).toFinset := by
    rw [heq]
    simp only [Finset.mem_range]
    exact index_of_lt_64 hc
  simp only [List.mem_toFinset, List.mem_map] at hmem
  obtain ⟨p, hp, hpc⟩ := hmem
  rwa [← index_of_inj (hob p hp) hc hpc]

/-- Every candidate in the top stack entry of an invariant board targets an
unvisited on-board square. -/
theorem top_fresh {b : Board} {top : List Coord} {rest : List (List Coord)}
    (hInv : InvB b) (hstack : b.moves_to_make = top :: rest) :
    ∀ c ∈ top, c ∈ knightMoves ∧ Board.is_on_board (b.current + c) = true ∧
      b.current + c ∉ posList b ∧ b.value_at (b.current + c) = 0 := by
  obtain ⟨h1, h2, h3, h4, h5, h6, h7, h8⟩ := hInv
  intro c hc
  have hlen : 0 < b.moves_to_make.length := by
    rw [hstack]
    simp
  have hc0 : c ∈ b.moves_to_make.getD 0 [] := by
    rw [hstack]
    exact hc
  have h80 := h8 0 hlen c hc0
  simp only [Nat.sub_zero] at h80
  have hdp : depthPos b.moves_made b.moves_made.length = b.current := by
    rw [depthPos, List.take_length, ← h3]
  have htk : (posList b).take b.moves_made.length = posList b := by
    rw [posList, ← positions_length ⟨0, 0⟩ b.moves_made, List.take_length]
  obtain ⟨hkn, hob, hnp⟩ := h80
  rw [hdp] at hob hnp
  rw [htk] at hnp
  refine ⟨hkn, hob, hnp, ?_⟩
  rw [value_at_markOf h7 hob]
  exact (markOf_eq_zero_iff _ _).mpr hnp

/-- The depth of an invariant board never exceeds 64, and a `Move` action is
only possible strictly below depth 64. -/
theorem depth_le_64 {b : Board} (hInv : InvB b) : b.moves_made.length ≤ 64 := by
  obtain ⟨h1, h2, h3, h4, h5, h6, h7, h8⟩ := hInv
  have := posList_length_le_64 h5 h6
  rwa [posList, positions_length] at this

theorem depth_lt_64_of_move {b : Board} {top : List Coord} {rest : List (List Coord)}
    (hInv : InvB b) (hstack : b.moves_to_make = top :: rest) (hne : top ≠ []) :
    b.moves_made.length ≤ 63 := by
  by_contra hgt
  have h64 : b.moves_made.length = 64 := by
    have := depth_le_64 hInv
    omega
  obtain ⟨c, hc⟩ := List.exists_mem_of_ne_nil top hne
  have hfr := top_fresh hInv hstack c hc
  obtain ⟨h1, h2, h3, h4, h5, h6, h7, h8⟩ := hInv
  have hlenps : (posList b).length = 64 := by
    rw [posList, positions_length, h64]
  exact hfr.2.2.1 (mem_of_sixtyfour h5 h6 hlenps hfr.2.1)

/-- A `Move` step on an invariant board preserves the invariant, extends the
history by one knight move, and strictly decreases the termination measure. -/
theorem invB_move {b b' : Board} {top : List Coord} {rest : List (List Coord)}
    (hInv : InvB b) (hstack : b.moves_to_make = top :: rest) (hne : top ≠ [])
    (happ : b.apply_best_move = some b') :
    InvB b' ∧ b'.moves_made.length = b.moves_made.length + 1 ∧
      measureB b' < measureB b := by
  have hfr := top_fresh hInv hstack
  obtain ⟨idx, hidx, hminimal, hfirst, heq⟩ :=
    apply_best_move_eq hstack hne (fun c hc => (hfr c hc).2.2.2)
  rw [happ] at heq
  have hb' := Option.some.inj heq
  have hcmem : top.getD idx ⟨0, 0⟩ ∈ top := by
    rw [List.getD_eq_getElem _ _ hidx]
    exact List.getElem_mem hidx
  obtain ⟨hckn, hcob, hcnp, hcval⟩ := hfr _ hcmem
  have hn63 := depth_lt_64_of_move hInv hstack hne
  obtain ⟨h1, h2, h3, h4, h5, h6, h7, h8⟩ := hInv
  -- component equations for the successor board
  have hmv' : b'.moves = b.moves := by rw [hb']; rfl
  have hmm' : b'.moves_made = b.moves_made ++ [top.getD idx ⟨0, 0⟩] := by rw [hb']; rfl
  have hcur' : b'.current = b.current + top.getD idx ⟨0, 0⟩ := by rw [hb']; rfl
  have hmtm' : b'.moves_to_make =
      (b.make_move (top.getD idx ⟨0, 0⟩)).available_moves :: top.eraseIdx idx :: rest := by
    rw [hb']
  have hbd0 : b'.board = (b.make_move (top.getD idx ⟨0, 0⟩)).board := by rw [hb']
  have hlenps : (posList b).length = b.moves_made.length := by
    rw [posList, positions_length]
  have hpos' : posList b' = posList b ++ [b.current + top.getD idx ⟨0, 0⟩] := by
    rw [posList, hmm', positions_concat, ← h3, posList]
  have hbd' : b'.board = boardOf (posList b') := by
    rw [hbd0, make_move_board, h7, hpos', boardOf_concat hcob hcnp, hlenps]
  have hrestlen : rest.length = b.moves_made.length := by
    rw [hstack] at h2
    simpa using h2
  have hmmlen' : b'.moves_made.length = b.moves_made.length + 1 := by
    rw [hmm']
    simp
  have hposlen' : (posList b').length = b.moves_made.length + 1 := by
    rw [hpos']
    simp [hlenps]
  refine ⟨⟨?_, ?_, ?_, ?_, ?_, ?_, ?_, ?_⟩, hmmlen', ?_⟩
  · rw [hmv', h1]
  · rw [hmtm', hmmlen']
    simp [hrestlen]
  · rw [hcur', hmm', endPos_concat, h3]
  · rw [hmm']
    intro d hd
    rcases List.mem_append.mp hd with hd | hd
    · exact h4 d hd
    · rw [List.mem_singleton.mp hd]
      exact hckn
  · rw [hpos', List.nodup_append]
    exact ⟨h5, List.nodup_singleton _, by simpa using hcnp⟩
  · rw [hpos']
    intro p hp
    rcases List.mem_append.mp hp with hp | hp
    · exact h6 p hp
    · rw [List.mem_singleton.mp hp]
      exact hcob
  · exact hbd'
  · -- the stack clause for the three-level new stack
    intro k hk c' hc'
    rw [hmtm'] at hc'
    rw [hmm', hpos']
    have hlenapp : (b.moves_made ++ [top.getD idx ⟨0, 0⟩]).length =
        b.moves_made.length + 1 := by simp
    rw [hlenapp]
    rcases k with _ | _ | k
    · -- k = 0 : the freshly pushed candidate list of the new position
      rw [List.getD_cons_zero] at hc'
      obtain ⟨hc1, hc2, hc3⟩ := mem_available_moves.mp hc'
      rw [make_move_moves, h1] at hc1
      rw [make_move_current] at hc2 hc3
      have hcm : b.current + top.getD idx ⟨0, 0⟩ + c' ∉
          (posList b ++ [b.current + top.getD idx ⟨0, 0⟩]) := by
        have hval : (b.make_move (top.getD idx ⟨0, 0⟩)).board =
            boardOf (posList b ++ [b.current + top.getD idx ⟨0, 0⟩]) := by
          rw [← hbd0, hbd', hpos']
        have := (can_move_iff hval hc2).mp
        exact this hc3
      have hdp : depthPos (b.moves_made ++ [top.getD idx ⟨0, 0⟩])
          (b.moves_made.length + 1 - 0) = b.current + top.getD idx ⟨0, 0⟩ := by
        rw [Nat.sub_zero, depthPos, ← hlenapp, List.take_length, endPos_concat, ← h3]
      rw [hdp]
      have htake : (posList b ++ [b.current + top.getD idx ⟨0, 0⟩]).take
          (b.moves_made.length + 1 - 0) = posList b ++ [b.current + top.getD idx ⟨0, 0⟩] := by
        rw [Nat.sub_zero]
        have hl : (posList b ++ [b.current + top.getD idx ⟨0, 0⟩]).length =
            b.moves_made.length + 1 := by
          simp [hlenps]
        rw [← hl, List.take_length]
      rw [htake]
      exact ⟨hc1, hc2, hcm⟩
    · -- k = 1 : the reduced current-depth candidate list
      rw [List.getD_cons_succ, List.getD_cons_zero] at hc'
      have hcsub : c' ∈ top := List.eraseIdx_subset _ _ hc'
      obtain ⟨hk1, hk2, hk3, _⟩ := hfr c' hcsub
      have hd1 : b.moves_made.length + 1 - 1 = b.moves_made.length := by omega
      rw [hd1]
      have hdp : depthPos (b.moves_made ++ [top.getD idx ⟨0, 0⟩]) b.moves_made.length
          = b.current := by
        rw [depthPos, List.take_left, ← h3]
      rw [hdp]
      have htake : (posList b ++ [b.current + top.getD idx ⟨0, 0⟩]).take
          b.moves_made.length = posList b := by
        rw [← hlenps, List.take_left]
      rw [htake]
      exact ⟨hk1, hk2, hk3⟩
    · -- k + 2 : untouched deeper levels
      rw [List.getD_cons_succ, List.getD_cons_succ] at hc'
      have hkrest : k < rest.length := by
        rw [hmtm'] at hk
        simp at hk
        omega
      have hkk : k + 1 < b.moves_to_make.length := by
        rw [hstack]
        simpa using Nat.succ_lt_succ hkrest
      have hcold : c' ∈ b.moves_to_make.getD (k + 1) [] := by
        rw [hstack, List.getD_cons_succ]
        exact hc'
      have hold := h8 (k + 1) hkk c' hcold
      have hd : b.moves_made.length + 1 - (k + 2) = b.moves_made.length - (k + 1) := by
        omega
      rw [hd]
      have hdle : b.moves_made.length - (k + 1) ≤ b.moves_made.length := by omega
      have hdp : depthPos (b.moves_made ++ [top.getD idx ⟨0, 0⟩])
          (b.moves_made.length - (k + 1)) = depthPos b.moves_made
            (b.moves_made.length - (k + 1)) := by
        rw [depthPos, depthPos, List.take_append_of_le_length hdle]
      rw [hdp]
      have htake : (posList b ++ [b.current + top.getD idx ⟨0, 0⟩]).take
          (b.moves_made.length - (k + 1)) = (posList b).take
            (b.moves_made.length - (k + 1)) := by
        apply List.take_append_of_le_length
        rw [hlenps]
        exact hdle
      rw [htake]
      exact hold
  · -- the measure strictly decreases
    have hA : ((b.make_move (top.getD idx ⟨0, 0⟩)).available_moves).length ≤ 8 := by
      apply available_moves_length_le
      rw [make_move_moves, h1]
    have hE : (top.eraseIdx idx).length = top.length - 1 := by
      rw [List.length_eraseIdx]
      simp [hidx]
    have hT : 1 ≤ top.length := by
      cases top with
      | nil => exact absurd rfl hne
      | cons a t => simp
    rw [measureB, measureB, hstack, hmtm', hmmlen']
    have hnew : stackMeasure ((b.make_move (top.getD idx ⟨0, 0⟩)).available_moves
        :: top.eraseIdx idx :: rest) (b.moves_made.length + 1)
        = ((b.make_move (top.getD idx ⟨0, 0⟩)).available_moves).length *
            9 ^ (64 - (b.moves_made.length + 1))
          + (top.eraseIdx idx).length * 9 ^ (64 - b.moves_made.length)
          + stackMeasure rest (b.moves_made.length - 1) := by
      simp only [stackMeasure, Nat.add_sub_cancel]
      ring
    have hold : stackMeasure (top :: rest) b.moves_made.length
        = top.length * 9 ^ (64 - b.moves_made.length)
          + stackMeasure rest (b.moves_made.length - 1) := rfl
    have hz1 : 64 - (b.moves_made.length + 1) = 63 - b.moves_made.length := by omega
    have hz2 : (9:Nat) ^ (64 - b.moves_made.length) = 9 * 9 ^ (63 - b.moves_made.length) := by
      have h641 : 64 - b.moves_made.length = (63 - b.moves_made.length) + 1 := by omega
      rw [h641, pow_succ]
      ring
    have hw : 1 ≤ (9:Nat) ^ (63 - b.moves_made.length) :=
      Nat.one_le_pow _ _ (by omega)
    have hAw : ((b.make_move (top.getD idx ⟨0, 0⟩)).available_moves).length *
        9 ^ (63 - b.moves_made.length) ≤ 8 * 9 ^ (63 - b.moves_made.length) :=
      Nat.mul_le_mul_right _ hA
    have hsplit : top.length * (9 * 9 ^ (63 - b.moves_made.length))
        = (top.length - 1) * (9 * 9 ^ (63 - b.moves_made.length))
          + 9 * 9 ^ (63 - b.moves_made.length) := by
      cases top with
      | nil => exact absurd rfl hne
      | cons a t =>
          simp only [List.length_cons, Nat.add_sub_cancel]
          ring
    have ho : ((b.make_move (top.getD idx ⟨0, 0⟩)).available_moves
        :: top.eraseIdx idx :: rest).length = rest.length + 2 := by simp
    have hp : (top :: rest).length = rest.length + 1 := by simp
    rw [hnew, hold, hz1, hz2, hE, hsplit, ho, hp]
    generalize hvw : (9:Nat) ^ (63 - b.moves_made.length) = w at hAw hw ⊢
    generalize hu : (top.length - 1) * (9 * w) = u
    generalize hX : ((b.make_move (top.getD idx ⟨0, 0⟩)).available_moves).length * w = X at hAw ⊢
    generalize hR : stackMeasure rest (b.moves_made.length - 1) = R
    omega

theorem get_action_stop {b : Board} (h : b.moves_to_make = []) :
    b.get_action = .Stop := by
  simp [Board.get_action, h]

theorem get_action_rollback {b : Board} {rest : List (List Coord)}
    (h : b.moves_to_make = [] :: rest) : b.get_action = .Rollback := by
  simp [Board.get_action, h]

theorem get_action_move {b : Board} {top : List Coord} {rest : List (List Coord)}
    (h : b.moves_to_make = top :: rest) (hne : top ≠ []) : b.get_action = .Move := by
  simp only [Board.get_action, h]
  rw [if_neg]
  simp [List.isEmpty_iff, hne]

/-- Classification of `get_action` by the shape of the candidate stack. -/
theorem get_action_split (b : Board) :
    b.moves_to_make = [] ∧ b.get_action = .Stop
    ∨ (∃ rest, b.moves_to_make = [] :: rest ∧ b.get_action = .Rollback)
    ∨ (∃ top rest, b.moves_to_make = top :: rest ∧ top ≠ [] ∧ b.get_action = .Move) := by
  cases hmtm : b.moves_to_make with
  | nil => exact Or.inl ⟨rfl, get_action_stop hmtm⟩
  | cons top rest =>
      by_cases htop : top = []
      · subst htop
        exact Or.inr (Or.inl ⟨rest, rfl, get_action_rollback hmtm⟩)
      · exact Or.inr (Or.inr ⟨top, rest, rfl, htop, get_action_move hmtm htop⟩)

/-- A `Rollback` step (undo plus popping the exhausted top list) on an
invariant board with a non-empty history preserves the invariant and
strictly decreases the termination measure. -/
theorem invB_rollback {b b₁ bT : Board} {rest : List (List Coord)}
    (hInv : InvB b) (hstack : b.moves_to_make = [] :: rest)
    (hrb : b.rollback = some b₁)
    (hbT : bT = { b₁ with moves_to_make := b₁.moves_to_make.tail }) :
    InvB bT ∧ measureB bT < measureB b := by
  obtain ⟨h1, h2, h3, h4, h5, h6, h7, h8⟩ := hInv
  -- decompose the rollback
  rw [Board.rollback] at hrb
  cases hlast : b.moves_made.getLast? with
  | none => rw [hlast] at hrb; exact absurd hrb (by simp)
  | some rb =>
      rw [hlast] at hrb
      simp only [Option.some.injEq] at hrb
      have hmmne : b.moves_made ≠ [] := by
        intro hcontra
        rw [hcontra] at hlast
        simp at hlast
      have hrbeq : rb = b.moves_made.getLast hmmne := by
        have := List.getLast?_eq_getLast b.moves_made hmmne
        rw [hlast] at this
        exact Option.some.inj this
      have hdecomp : b.moves_made.dropLast ++ [rb] = b.moves_made := by
        rw [hrbeq]
        exact List.dropLast_append_getLast hmmne
      -- component equations of the stepped board
      have hmm' : bT.moves_made = b.moves_made.dropLast := by
        rw [hbT, ← hrb]
      have hcur' : bT.current = b.current - rb := by
        rw [hbT, ← hrb]
      have hbd' : bT.board = b.board.set (Board.index_of b.current) 0 := by
        rw [hbT, ← hrb]
      have hmv' : bT.moves = b.moves := by
        rw [hbT, ← hrb]
      have hmtm' : bT.moves_to_make = rest := by
        rw [hbT, ← hrb]
        show b.moves_to_make.tail = rest
        rw [hstack]
        rfl
      -- the path decomposition
      have hend : endPos ⟨0, 0⟩ b.moves_made = endPos ⟨0, 0⟩ b.moves_made.dropLast + rb := by
        conv =>
          lhs
          rw [← hdecomp]
        rw [endPos_concat]
      have hps : posList b = positions ⟨0, 0⟩ b.moves_made.dropLast ++ [b.current] := by
        rw [posList]
        conv =>
          lhs
          rw [← hdecomp]
        rw [positions_concat, ← hend, ← h3]
      have hpos2 : posList bT = positions ⟨0, 0⟩ b.moves_made.dropLast := by
        rw [posList, hmm']
      have hcur_ob : Board.is_on_board b.current = true := by
        apply h6
        rw [hps]
        simp
      have hnodup0 : (positions ⟨0, 0⟩ b.moves_made.dropLast).Nodup := by
        rw [hps, List.nodup_append] at h5
        exact h5.1
      have hcur_not : b.current ∉ positions ⟨0, 0⟩ b.moves_made.dropLast := by
        rw [hps, List.nodup_append] at h5
        intro hc
        exact (h5.2.2 hc) (by simp)
      have hmmlen : b.moves_made.length = b.moves_made.dropLast.length + 1 := by
        have h0 : 0 < b.moves_made.length := List.length_pos.mpr hmmne
        rw [List.length_dropLast]
        omega
      have hrest : rest.length = b.moves_made.length := by
        rw [hstack] at h2
        simpa using h2
      have hps0len : (positions ⟨0, 0⟩ b.moves_made.dropLast).length
          = b.moves_made.dropLast.length := positions_length ..
      refine ⟨⟨?_, ?_, ?_, ?_, ?_, ?_, ?_, ?_⟩, ?_⟩
      · rw [hmv', h1]
      · rw [hmtm', hmm', hrest, hmmlen]
      · rw [hcur', hmm', h3, hend, Coord.add_sub_cancel]
      · rw [hmm']
        intro d hd
        exact h4 d (List.dropLast_subset _ hd)
      · rw [hpos2]
        exact hnodup0
      · rw [hpos2]
        intro p hp
        apply h6
        rw [hps]
        exact List.mem_append_left _ hp
      · rw [hbd', hpos2, h7, hps]
        exact set_boardOf_concat_zero hcur_ob hcur_not
      · -- the stack clause: levels shift down by one
        rw [hmtm', hmm', hpos2]
        intro k hk c' hc'
        have hkk : k + 1 < b.moves_to_make.length := by
          rw [hstack]
          simpa using Nat.succ_lt_succ hk
        have hcold : c' ∈ b.moves_to_make.getD (k + 1) [] := by
          rw [hstack, List.getD_cons_succ]
          exact hc'
        have hold := h8 (k + 1) hkk c' hcold
        have hd : b.moves_made.dropLast.length - k = b.moves_made.length - (k + 1) := by
          omega
        rw [hd]
        have hdle : b.moves_made.length - (k + 1) ≤ b.moves_made.dropLast.length := by
          omega
        have hdp : depthPos b.moves_made.dropLast (b.moves_made.length - (k + 1))
            = depthPos b.moves_made (b.moves_made.length - (k + 1)) := by
          unfold depthPos
          congr 1
          rw [List.dropLast_eq_take, List.take_take]
          congr 1
          omega
        have htake : (positions ⟨0, 0⟩ b.moves_made.dropLast).take
            (b.moves_made.length - (k + 1))
            = (posList b).take (b.moves_made.length - (k + 1)) := by
          rw [hps]
          rw [List.take_append_of_le_length (by omega : b.moves_made.length - (k + 1) ≤
            (positions ⟨0, 0⟩ b.moves_made.dropLast).length)]
        rw [hdp, htake]
        exact hold
      · -- the measure strictly decreases
        rw [measureB, measureB, hmtm', hmm', hstack]
        have hsm : stackMeasure ([] :: rest) b.moves_made.length
            = stackMeasure rest (b.moves_made.length - 1) := by
          show List.length [] * 9 ^ (64 - b.moves_made.length) +
            stackMeasure rest (b.moves_made.length - 1) = _
          simp
        rw [hsm]
        have hd : b.moves_made.dropLast.length = b.moves_made.length - 1 := by omega
        rw [hd]
        simp

/-! ### One loop iteration, by action -/

theorem step_stop {sendOk : Bool} {b : Board} (ha : b.get_action = .Stop) :
    step sendOk b = .stopped := by
  unfold step
  rw [ha]

theorem step_rollback_none {sendOk : Bool} {b : Board} (ha : b.get_action = .Rollback)
    (hrb : b.rollback = none) : step sendOk b = .fault .rollbackEmpty := by
  unfold step
  rw [ha, hrb]

theorem step_rollback_some {sendOk : Bool} {b b₁ : Board} (ha : b.get_action = .Rollback)
    (hrb : b.rollback = some b₁) :
    step sendOk b = .next none { b₁ with moves_to_make := b₁.moves_to_make.tail } := by
  unfold step
  rw [ha, hrb]

theorem step_move_none {sendOk : Bool} {b : Board} (ha : b.get_action = .Move)
    (happ : b.apply_best_move = none) : step sendOk b = .fault .bestEmpty := by
  unfold step
  rw [ha, happ]

theorem step_move_some {sendOk : Bool} {b b₁ : Board} (ha : b.get_action = .Move)
    (happ : b.apply_best_move = some b₁) :
    step sendOk b =
      if b₁.moves_made.length = 64 then
        match b₁.is_closed_tour with
        | none => .fault .closedTourEmpty
        | some closed =>
            if closed then
              if sendOk then .next (some b₁.moves_made) b₁
              else .fault .sendFail
            else .next none b₁
      else .next none b₁ := by
  unfold step
  rw [ha, happ]

theorem step_move_closed {sendOk : Bool} {b b₁ : Board} {closed : Bool}
    (ha : b.get_action = .Move) (happ : b.apply_best_move = some b₁)
    (hlen : b₁.moves_made.length = 64) (hct : b₁.is_closed_tour = some closed) :
    step sendOk b =
      if closed then
        (if sendOk then .next (some b₁.moves_made) b₁ else .fault .sendFail)
      else .next none b₁ := by
  rw [step_move_some ha happ, if_pos hlen, hct]

theorem step_move_notfull {sendOk : Bool} {b b₁ : Board} (ha : b.get_action = .Move)
    (happ : b.apply_best_move = some b₁) (hlen : ¬ b₁.moves_made.length = 64) :
    step sendOk b = .next none b₁ := by
  rw [step_move_some ha happ, if_neg hlen]

theorem is_closed_tour_some {b : Board} (h : b.moves_made ≠ []) :
    ∃ v, b.is_closed_tour = some v := by
  rw [Board.is_closed_tour]
  cases hh : b.moves_made.head? with
  | none => exact absurd (List.head?_eq_none_iff.mp hh) h
  | some f => exact ⟨_, rfl⟩

theorem is_closed_tour_none {b : Board} (h : b.moves_made = []) :
    b.is_closed_tour = none := by
  rw [Board.is_closed_tour, h]
  rfl

theorem is_closed_tour_cons {b : Board} {fst : Coord}
    (hh : b.moves_made.head? = some fst) :
    b.is_closed_tour = some (b.moves.any (fun m => b.current + m == fst)) := by
  rw [Board.is_closed_tour, hh]

/-- A non-faulting, non-stopping iteration preserves the invariant, strictly
decreases the measure, and only emits a 64-move closed tour equal to the new
board's history. -/
theorem step_next {sendOk : Bool} {b b' : Board} {em : Option (List Coord)}
    (hInv : InvB b) (hstep : step sendOk b = .next em b') :
    InvB b' ∧ measureB b' < measureB b ∧
      (∀ t, em = some t → t = b'.moves_made ∧ b'.moves_made.length = 64 ∧
        b'.is_closed_tour = some true) := by
  rcases get_action_split b with ⟨hmtm, ha⟩ | ⟨rest, hmtm, ha⟩ | ⟨top, rest, hmtm, hne, ha⟩
  · rw [step_stop ha] at hstep
    cases hstep
  · cases hrb : b.rollback with
    | none =>
        rw [step_rollback_none ha hrb] at hstep
        cases hstep
    | some b₁ =>
        rw [step_rollback_some ha hrb] at hstep
        simp only [StepRes.next.injEq] at hstep
        obtain ⟨hem, hb'⟩ := hstep
        obtain ⟨hI, hm⟩ := invB_rollback hInv hmtm hrb hb'.symm
        refine ⟨hI, hm, ?_⟩
        intro t ht
        rw [← hem] at ht
        cases ht
  · cases happ : b.apply_best_move with
    | none =>
        rw [step_move_none ha happ] at hstep
        cases hstep
    | some b₁ =>
        obtain ⟨hI, hlen1, hm⟩ := invB_move hInv hmtm hne happ
        by_cases hlen : b₁.moves_made.length = 64
        · have hmmne : b₁.moves_made ≠ [] := by
            intro hcontra
            rw [hcontra] at hlen
            simp at hlen
          obtain ⟨closed, hct⟩ := is_closed_tour_some hmmne
          rw [step_move_closed ha happ hlen hct] at hstep
          cases closed with
          | true =>
              rw [if_pos rfl] at hstep
              cases sendOk with
              | true =>
                  rw [if_pos rfl] at hstep
                  simp only [StepRes.next.injEq] at hstep
                  obtain ⟨hem, hb'⟩ := hstep
                  subst hb'
                  refine ⟨hI, hm, ?_⟩
                  intro t ht
                  rw [← hem] at ht
                  exact ⟨(Option.some.inj ht).symm, hlen, hct⟩
              | false =>
                  rw [if_neg (by simp)] at hstep
                  cases hstep
          | false =>
              rw [if_neg (by simp)] at hstep
              simp only [StepRes.next.injEq] at hstep
              obtain ⟨hem, hb'⟩ := hstep
              subst hb'
              refine ⟨hI, hm, ?_⟩
              intro t ht
              rw [← hem] at ht
              cases ht
        · rw [step_move_notfull ha happ hlen] at hstep
          simp only [StepRes.next.injEq] at hstep
          obtain ⟨hem, hb'⟩ := hstep
          subst hb'
          refine ⟨hI, hm, ?_⟩
          intro t ht
          rw [← hem] at ht
          cases ht

/-- With a live receiver, the only way an iteration can fail is the
empty-history rollback at the root of the search tree. -/
theorem step_fault_classify {b : Board} {f : Fault} (hInv : InvB b)
    (hstep : step true b = .fault f) :
    f = .rollbackEmpty ∧ b.moves_made = [] ∧ b.get_action = .Rollback := by
  rcases get_action_split b with ⟨hmtm, ha⟩ | ⟨rest, hmtm, ha⟩ | ⟨top, rest, hmtm, hne, ha⟩
  · rw [step_stop ha] at hstep
    cases hstep
  · cases hrb : b.rollback with
    | none =>
        rw [step_rollback_none ha hrb] at hstep
        have hmm : b.moves_made = [] := by
          rw [Board.rollback] at hrb
          cases hlast : b.moves_made.getLast? with
          | none => exact List.getLast?_eq_none_iff.mp hlast
          | some rb => rw [hlast] at hrb; cases hrb
        exact ⟨(StepRes.fault.inj hstep).symm, hmm, ha⟩
    | some b₁ =>
        rw [step_rollback_some ha hrb] at hstep
        cases hstep
  · cases happ : b.apply_best_move with
    | none =>
        have hfr := top_fresh hInv hmtm
        obtain ⟨idx, hidx, _, _, heq⟩ :=
          apply_best_move_eq hmtm hne (fun c hc => (hfr c hc).2.2.2)
        rw [happ] at heq
        cases heq
    | some b₁ =>
        by_cases hlen : b₁.moves_made.length = 64
        · have hmmne : b₁.moves_made ≠ [] := by
            intro hcontra
            rw [hcontra] at hlen
            simp at hlen
          obtain ⟨closed, hct⟩ := is_closed_tour_some hmmne
          rw [step_move_closed ha happ hlen hct] at hstep
          cases closed with
          | true =>
              rw [if_pos rfl, if_pos rfl] at hstep
              cases hstep
          | false =>
              rw [if_neg (by simp)] at hstep
              cases hstep
        · rw [step_move_notfull ha happ hlen] at hstep
          cases hstep

/-- An invariant board never stops the loop: the candidate stack is never
empty. -/
theorem step_not_stopped {sendOk : Bool} {b : Board} (hInv : InvB b) :
    step sendOk b ≠ .stopped := by
  rcases get_action_split b with ⟨hmtm, ha⟩ | ⟨rest, hmtm, ha⟩ | ⟨top, rest, hmtm, hne, ha⟩
  · exfalso
    obtain ⟨h1, h2, h3, h4, h5, h6, h7, h8⟩ := hInv
    rw [hmtm] at h2
    simp at h2
  · cases hrb : b.rollback with
    | none => rw [step_rollback_none ha hrb]; simp
    | some b₁ => rw [step_rollback_some ha hrb]; simp
  · cases happ : b.apply_best_move with
    | none => rw [step_move_none ha happ]; simp
    | some b₁ =>
        by_cases hlen : b₁.moves_made.length = 64
        · have hmmne : b₁.moves_made ≠ [] := by
            intro hcontra
            rw [hcontra] at hlen
            simp at hlen
          obtain ⟨closed, hct⟩ := is_closed_tour_some hmmne
          rw [step_move_closed ha happ hlen hct]
          cases closed with
          | true =>
              rw [if_pos rfl]
              cases sendOk <;> simp
          | false =>
              rw [if_neg (by simp)]
              simp
        · rw [step_move_notfull ha happ hlen]
          simp

/-! ### The loop: reachability, exhaustion, emitted tours -/

theorem iterB_succ_stopped {sendOk : Bool} {n : Nat} {b : Board}
    (hstep : step sendOk b = .stopped) : iterB sendOk (n + 1) b = .ok b := by
  show (match step sendOk b with
    | .stopped => Except.ok b
    | .fault f => .error f
    | .next _ b' => iterB sendOk n b') = _
  rw [hstep]

theorem iterB_succ_fault {sendOk : Bool} {n : Nat} {b : Board} {f : Fault}
    (hstep : step sendOk b = .fault f) : iterB sendOk (n + 1) b = .error f := by
  show (match step sendOk b with
    | .stopped => Except.ok b
    | .fault f => .error f
    | .next _ b' => iterB sendOk n b') = _
  rw [hstep]

theorem iterB_succ_next {sendOk : Bool} {n : Nat} {b b' : Board} {em : Option (List Coord)}
    (hstep : step sendOk b = .next em b') :
    iterB sendOk (n + 1) b = iterB sendOk n b' := by
  show (match step sendOk b with
    | .stopped => Except.ok b
    | .fault f => .error f
    | .next _ b₂ => iterB sendOk n b₂) = _
  rw [hstep]

theorem emitted_succ_stopped {sendOk : Bool} {n : Nat} {b : Board}
    (hstep : step sendOk b = .stopped) : emitted sendOk (n + 1) b = [] := by
  show (match step sendOk b with
    | .stopped => ([] : List (List Coord))
    | .fault _ => []
    | .next em b' => em.toList ++ emitted sendOk n b') = _
  rw [hstep]

theorem emitted_succ_fault {sendOk : Bool} {n : Nat} {b : Board} {f : Fault}
    (hstep : step sendOk b = .fault f) : emitted sendOk (n + 1) b = [] := by
  show (match step sendOk b with
    | .stopped => ([] : List (List Coord))
    | .fault _ => []
    | .next em b' => em.toList ++ emitted sendOk n b') = _
  rw [hstep]

theorem emitted_succ_next {sendOk : Bool} {n : Nat} {b b' : Board} {em : Option (List Coord)}
    (hstep : step sendOk b = .next em b') :
    emitted sendOk (n + 1) b = em.toList ++ emitted sendOk n b' := by
  show (match step sendOk b with
    | .stopped => ([] : List (List Coord))
    | .fault _ => []
    | .next em b₂ => em.toList ++ emitted sendOk n b₂) = _
  rw [hstep]

/-- The freshly constructed board satisfies the search invariant. -/
theorem invB_new : InvB Board.new := by decide

/-- The invariant holds on every board the loop can reach. -/
theorem iterB_ok_invB {sendOk : Bool} :
    ∀ (n : Nat) (b₀ b : Board), InvB b₀ → iterB sendOk n b₀ = .ok b → InvB b := by
  intro n
  induction n with
  | zero =>
      intro b₀ b h0 hit
      cases hit
      exact h0
  | succ k ih =>
      intro b₀ b h0 hit
      cases hstep : step sendOk b₀ with
      | stopped =>
          rw [iterB_succ_stopped hstep] at hit
          cases hit
          exact h0
      | fault f =>
          rw [iterB_succ_fault hstep] at hit
          cases hit
      | next em b₁ =>
          rw [iterB_succ_next hstep] at hit
          exact ih b₁ b (step_next h0 hstep).1 hit

/-- From any invariant board the loop reaches, in finitely many iterations,
the empty-history rollback fault: it can neither stop (the stack is never
empty) nor run forever (the measure strictly decreases). -/
theorem exhaust : ∀ (n : Nat) (b : Board), measureB b ≤ n → InvB b →
    ∃ k, iterB true k b = .error .rollbackEmpty := by
  intro n
  induction n with
  | zero =>
      intro b hle hInv
      cases hstep : step true b with
      | stopped => exact absurd hstep (step_not_stopped hInv)
      | fault f =>
          obtain ⟨hf, _, _⟩ := step_fault_classify hInv hstep
          subst hf
          exact ⟨1, iterB_succ_fault hstep⟩
      | next em b' =>
          obtain ⟨_, hm, _⟩ := step_next hInv hstep
          omega
  | succ k ih =>
      intro b hle hInv
      cases hstep : step true b with
      | stopped => exact absurd hstep (step_not_stopped hInv)
      | fault f =>
          obtain ⟨hf, _, _⟩ := step_fault_classify hInv hstep
          subst hf
          exact ⟨1, iterB_succ_fault hstep⟩
      | next em b' =>
          obtain ⟨hI, hm, _⟩ := step_next hInv hstep
          obtain ⟨j, hj⟩ := ih b' (by omega) hI
          exact ⟨j + 1, by rw [iterB_succ_next hstep]; exact hj⟩

/-- Soundness of every tour the loop sends on the channel, from any
invariant starting board: 64 knight offsets whose partial sums are distinct
on-board squares, with a final square one knight move away from the first
visited square. -/
theorem emitted_sound {sendOk : Bool} :
    ∀ (n : Nat) (b : Board), InvB b → ∀ t ∈ emitted sendOk n b,
      t.length = 64 ∧ (∀ c ∈ t, c ∈ knightMoves) ∧
        (positions ⟨0, 0⟩ t).Nodup ∧
        (∀ p ∈ positions ⟨0, 0⟩ t, Board.is_on_board p = true) ∧
        (∃ m ∈ knightMoves, endPos ⟨0, 0⟩ t + m = t.head?.getD ⟨0, 0⟩) := by
  intro n
  induction n with
  | zero =>
      intro b _ t ht
      cases ht
  | succ k ih =>
      intro b hInv t ht
      cases hstep : step sendOk b with
      | stopped =>
          rw [emitted_succ_stopped hstep] at ht
          cases ht
      | fault f =>
          rw [emitted_succ_fault hstep] at ht
          cases ht
      | next em b' =>
          rw [emitted_succ_next hstep] at ht
          obtain ⟨hI, _, hem⟩ := step_next hInv hstep
          rcases List.mem_append.mp ht with hthis | htail
          · -- the tour emitted by this iteration
            cases em with
            | none => cases hthis
            | some t0 =>
                simp only [Option.toList_some, List.mem_singleton] at hthis
                subst hthis
                obtain ⟨hteq, hlen, hct⟩ := hem t rfl
                obtain ⟨i1, i2, i3, i4, i5, i6, i7, i8⟩ := hI
                rw [hteq]
                have hposb : posList b' = positions ⟨0, 0⟩ b'.moves_made := rfl
                refine ⟨hlen, i4, by rw [← hposb]; exact i5, by rw [← hposb]; exact i6, ?_⟩
                -- the closing knight move
                have hmmne2 : b'.moves_made ≠ [] := by
                  intro hcontra
                  rw [hcontra] at hlen
                  simp at hlen
                obtain ⟨fst, hh⟩ : ∃ fst, b'.moves_made.head? = some fst := by
                  cases hmm2 : b'.moves_made with
                  | nil => exact absurd hmm2 hmmne2
                  | cons a l => exact ⟨a, rfl⟩
                rw [is_closed_tour_cons hh] at hct
                have hany := Option.some.inj hct
                obtain ⟨m, hmem, hmeq⟩ := List.any_eq_true.mp hany
                refine ⟨m, by rw [← i1]; exact hmem, ?_⟩
                rw [hh]
                simp only [Option.getD_some]
                rw [← i3]
                exact eq_of_beq hmeq
          · exact ih b' hI t htail

/-! ### The multiset of non-zero visit orders -/

theorem filter_set_perm :
    ∀ (l : List Int) (i : Nat) (v : Int), i < l.length → l.getD i 0 = 0 → v ≠ 0 →
    ((l.set i v).filter (fun x => x != 0)).Perm (v :: l.filter (fun x => x != 0)) := by
  intro l
  induction l with
  | nil =>
      intro i v hi
      simp at hi
  | cons a t ih =>
      intro i v hi h0 hv
      cases i with
      | zero =>
          simp only [List.getD_cons_zero] at h0
          subst h0
          rw [List.set_cons_zero]
          rw [List.filter_cons_of_pos (by simpa using hv),
            List.filter_cons_of_neg (by simp)]
      | succ j =>
          simp only [List.getD_cons_succ] at h0
          have hj : j < t.length := by simpa using hi
          rw [List.set_cons_succ]
          by_cases ha : a = 0
          · subst ha
            rw [List.filter_cons_of_neg (by simp), List.filter_cons_of_neg (by simp)]
            exact ih j v hj h0 hv
          · rw [List.filter_cons_of_pos (by simpa using ha),
              List.filter_cons_of_pos (by simpa using ha)]
            exact ((ih j v hj h0 hv).cons a).trans (List.Perm.swap ..)

theorem boardOf_nil_filter : (boardOf []).filter (fun v => v != 0) = [] := by decide

/-- The non-zero entries of the visit-order grid of `n` distinct on-board
squares are exactly the orders `1..n`, each once. -/
theorem boardOf_filter_perm (ps : List Coord) :
    ps.Nodup → (∀ p ∈ ps, Board.is_on_board p = true) →
    ((boardOf ps).filter (fun v => v != 0)).Perm
      ((List.range' 1 ps.length).map (Nat.cast : Nat → Int)) := by
  induction ps using List.reverseRecOn with
  | nil =>
      intro _ _
      rw [boardOf_nil_filter]
      simp
  | append_singleton ps p ih =>
      intro hnd hob
      rw [List.nodup_append] at hnd
      have hndps : ps.Nodup := hnd.1
      have hpnot : p ∉ ps := fun hc => (hnd.2.2 hc) (by simp)
      have hobp : Board.is_on_board p = true := hob p (by simp)
      have hobps : ∀ q ∈ ps, Board.is_on_board q = true :=
        fun q hq => hob q (List.mem_append_left _ hq)
      rw [boardOf_concat hobp hpnot]
      have hperm1 := filter_set_perm (boardOf ps) (Board.index_of p) ((ps.length : Int) + 1)
        (by rw [boardOf_length]; exact index_of_lt_64 hobp)
        (by rw [getD_boardOf ps hobp]; exact (markOf_eq_zero_iff ps p).mpr hpnot)
        (by omega)
      refine hperm1.trans ?_
      have hlen : (ps ++ [p]).length = ps.length + 1 := by simp
      rw [hlen, List.range'_concat, List.map_append]
      simp only [List.map_cons, List.map_nil]
      refine List.Perm.trans ?_ (List.perm_append_singleton ..).symm
      have hcast : ((1 + 1 * ps.length : Nat) : Int) = (ps.length : Int) + 1 := by
        push_cast
        ring
      rw [hcast]
      exact (ih hndps hobps).cons _

/-- The knight's current square carries the latest visit order. -/
theorem value_at_current_of_inv {b : Board} (hInv : InvB b)
    (hne : b.moves_made ≠ []) :
    b.value_at b.current = (b.moves_made.length : Int) := by
  obtain ⟨h1, h2, h3, h4, h5, h6, h7, h8⟩ := hInv
  have hrbeq := List.getLast?_eq_getLast b.moves_made hne
  have hdecomp : b.moves_made.dropLast ++ [b.moves_made.getLast hne] = b.moves_made :=
    List.dropLast_append_getLast hne
  have hend : endPos ⟨0, 0⟩ b.moves_made
      = endPos ⟨0, 0⟩ b.moves_made.dropLast + b.moves_made.getLast hne := by
    conv =>
      lhs
      rw [← hdecomp]
    rw [endPos_concat]
  have hps : posList b = positions ⟨0, 0⟩ b.moves_made.dropLast ++ [b.current] := by
    rw [posList]
    conv =>
      lhs
      rw [← hdecomp]
    rw [positions_concat, ← hend, ← h3]
  have hcur_ob : Board.is_on_board b.current = true := by
    apply h6
    rw [hps]
    simp
  have hcur_not : b.current ∉ positions ⟨0, 0⟩ b.moves_made.dropLast := by
    rw [hps, List.nodup_append] at h5
    intro hc
    exact (h5.2.2 hc) (by simp)
  rw [value_at_markOf h7 hcur_ob, hps, markOf_concat_self hcur_not, positions_length]
  have : b.moves_made.dropLast.length + 1 = b.moves_made.length := by
    have h0 : 0 < b.moves_made.length := List.length_pos.mpr hne
    rw [List.length_dropLast]
    omega
  push_cast [← this]
  ring

theorem step_no_closedTourEmpty (sendOk : Bool) (b : Board) :
    step sendOk b ≠ .fault .closedTourEmpty := by
  rcases get_action_split b with ⟨hmtm, ha⟩ | ⟨rest, hmtm, ha⟩ | ⟨top, rest, hmtm, hne, ha⟩
  · rw [step_stop ha]
    simp
  · cases hrb : b.rollback with
    | none => rw [step_rollback_none ha hrb]; simp
    | some b₁ => rw [step_rollback_some ha hrb]; simp
  · cases happ : b.apply_best_move with
    | none => rw [step_move_none ha happ]; simp
    | some b₁ =>
        by_cases hlen : b₁.moves_made.length = 64
        · have hmmne : b₁.moves_made ≠ [] := by
            intro hcontra
            rw [hcontra] at hlen
            simp at hlen
          obtain ⟨closed, hct⟩ := is_closed_tour_some hmmne
          rw [step_move_closed ha happ hlen hct]
          cases closed with
          | true =>
              rw [if_pos rfl]
              cases sendOk <;> simp
          | false =>
              rw [if_neg (by simp)]
              simp
        · rw [step_move_notfull ha happ hlen]
          simp

set_option maxRecDepth 200000 in
/-- Running the search loop for 80 iterations emits exactly one tour, namely
`tour0` (checked by kernel evaluation of the loop). -/
theorem emittedEval : emitted true 80 Board.new = [tour0] := by rfl

theorem tour0_mem : tour0 ∈ emitted true 80 Board.new := by
  rw [emittedEval]
  exact List.mem_singleton.mpr rfl

/-! ### The claims -/

/-- C9: `Board::new` never assigns a visit order to the start square: right
after construction the start square's stored value is 0 and `can_move` on it
is true, so the occupied start square is indistinguishable from an
unvisited one. -/
theorem c9_start_square_unmarked :
    Board.new.value_at ⟨0, 0⟩ = 0 ∧ Board.new.can_move ⟨0, 0⟩ = true := by
  decide

/-- C6: applying a move whose target square is on the board and unvisited
and then rolling it back restores `current`, the entire 64-cell grid, and
the move history exactly. -/
theorem c6_rollback_inverse (b : Board) (c : Coord)
    (_hob : Board.is_on_board (b.current + c) = true)
    (hval : b.value_at (b.current + c) = 0) :
    (b.make_move c).rollback = some b :=
  rollback_make_move hval

theorem c6_rollback_inverse_witness :
    Board.is_on_board (Board.new.current + ⟨1, 2⟩) = true ∧
      Board.new.value_at (Board.new.current + ⟨1, 2⟩) = 0 ∧
      (Board.new.make_move ⟨1, 2⟩).rollback = some Board.new :=
  ⟨by decide, by decide, c6_rollback_inverse Board.new ⟨1, 2⟩ (by decide) (by decide)⟩

/-- C10: `is_closed_tour` faults (the `unwrap` of `first()`) exactly when
the history is empty; the driver evaluates it only behind the
short-circuiting `moves_made.len() == 64` guard, so no iteration of the
loop, from any state, can reach that fault. -/
theorem c10_closed_tour_guard :
    (∀ b : Board, b.moves_made = [] → b.is_closed_tour = none) ∧
      (∀ (sendOk : Bool) (b : Board), step sendOk b ≠ .fault .closedTourEmpty) :=
  ⟨fun _ h => is_closed_tour_none h, step_no_closedTourEmpty⟩

theorem c10_closed_tour_guard_witness :
    Board.new.is_closed_tour = none ∧
      step true Board.new ≠ .fault .closedTourEmpty :=
  ⟨c10_closed_tour_guard.1 Board.new rfl, c10_closed_tour_guard.2 true Board.new⟩

/-- C7: on every board reachable from `Board::new` at an iteration boundary
of the search loop, while the candidate stack is non-empty it is exactly
one level deeper than the move history. -/
theorem c7_stack_one_deeper (n : Nat) (b : Board)
    (hreach : iterB true n Board.new = .ok b) :
    b.moves_to_make = [] ∨
      b.moves_to_make.length = b.moves_made.length + 1 :=
  Or.inr (iterB_ok_invB n Board.new b invB_new hreach).2.1

theorem c7_stack_one_deeper_witness :
    iterB true 0 Board.new = .ok Board.new ∧
      (Board.new.moves_to_make = [] ∨
        Board.new.moves_to_make.length = Board.new.moves_made.length + 1) :=
  ⟨rfl, c7_stack_one_deeper 0 Board.new rfl⟩

/-- C8: on every board reachable from `Board::new`, the non-zero cell values
of the grid are exactly `1..len(moves_made)` with no duplicates, and once at
least one move has been made the current square carries the value
`len(moves_made)`. -/
theorem c8_visit_orders (n : Nat) (b : Board)
    (hreach : iterB true n Board.new = .ok b) :
    (b.board.filter (fun v => v != 0)).Perm
        ((List.range' 1 b.moves_made.length).map (Nat.cast : Nat → Int)) ∧
      (b.moves_made = [] ∨ b.value_at b.current = (b.moves_made.length : Int)) := by
  have hInv := iterB_ok_invB n Board.new b invB_new hreach
  have h5 := hInv.2.2.2.2.1
  have h6 := hInv.2.2.2.2.2.1
  have h7 := hInv.2.2.2.2.2.2.1
  constructor
  · rw [h7]
    have hperm := boardOf_filter_perm (posList b) h5 h6
    rwa [posList, positions_length] at hperm
  · by_cases hne : b.moves_made = []
    · exact Or.inl hne
    · exact Or.inr (value_at_current_of_inv hInv hne)

theorem c8_visit_orders_witness :
    iterB true 0 Board.new = .ok Board.new ∧
      ((Board.new.board.filter (fun v => v != 0)).Perm
        ((List.range' 1 Board.new.moves_made.length).map (Nat.cast : Nat → Int)) ∧
      (Board.new.moves_made = [] ∨
        Board.new.value_at Board.new.current = (Board.new.moves_made.length : Int))) :=
  ⟨rfl, c8_visit_orders 0 Board.new rfl⟩

/-- C5: `apply_best_move` on a board whose non-empty top candidate list
consists of untried moves to unvisited on-board squares: the candidates are
each evaluated by apply-count-undo against the unchanged board `b`, the
first candidate of strictly minimal post-move mobility is permanently
applied (a later candidate of equal mobility never replaces it), it is
removed from the top list at its original index, and the freshly computed
candidate list of the new position is pushed. -/
theorem c5_warnsdorff_selection (b : Board) (top : List Coord)
    (rest : List (List Coord)) (hstack : b.moves_to_make = top :: rest)
    (hne : top ≠ [])
    (hfresh : ∀ c ∈ top, Board.is_on_board (b.current + c) = true ∧
      b.value_at (b.current + c) = 0) :
    ∃ idx, idx < top.length ∧
      (∀ k, k < top.length →
        mobility b (top.getD idx ⟨0, 0⟩) ≤ mobility b (top.getD k ⟨0, 0⟩)) ∧
      (∀ k, k < idx →
        mobility b (top.getD idx ⟨0, 0⟩) < mobility b (top.getD k ⟨0, 0⟩)) ∧
      b.apply_best_move = some
        { b.make_move (top.getD idx ⟨0, 0⟩) with
            moves_to_make :=
              (b.make_move (top.getD idx ⟨0, 0⟩)).available_moves
                :: top.eraseIdx idx :: rest } :=
  apply_best_move_eq hstack hne (fun c hc => (hfresh c hc).2)

theorem c5_warnsdorff_selection_witness :
    Board.new.moves_to_make = [[⟨1, 2⟩, ⟨2, 1⟩]] ∧
      ([⟨1, 2⟩, ⟨2, 1⟩] : List Coord) ≠ [] ∧
      (∀ c ∈ ([⟨1, 2⟩, ⟨2, 1⟩] : List Coord),
        Board.is_on_board (Board.new.current + c) = true ∧
          Board.new.value_at (Board.new.current + c) = 0) ∧
      (∃ idx, idx < ([⟨1, 2⟩, ⟨2, 1⟩] : List Coord).length ∧
        (∀ k, k < ([⟨1, 2⟩, ⟨2, 1⟩] : List Coord).length →
          mobility Board.new (([⟨1, 2⟩, ⟨2, 1⟩] : List Coord).getD idx ⟨0, 0⟩) ≤
            mobility Board.new (([⟨1, 2⟩, ⟨2, 1⟩] : List Coord).getD k ⟨0, 0⟩)) ∧
        (∀ k, k < idx →
          mobility Board.new (([⟨1, 2⟩, ⟨2, 1⟩] : List Coord).getD idx ⟨0, 0⟩) <
            mobility Board.new (([⟨1, 2⟩, ⟨2, 1⟩] : List Coord).getD k ⟨0, 0⟩)) ∧
        Board.new.apply_best_move = some
          { Board.new.make_move (([⟨1, 2⟩, ⟨2, 1⟩] : List Coord).getD idx ⟨0, 0⟩) with
              moves_to_make :=
                (Board.new.make_move
                    (([⟨1, 2⟩, ⟨2, 1⟩] : List Coord).getD idx ⟨0, 0⟩)).available_moves
                  :: ([⟨1, 2⟩, ⟨2, 1⟩] : List Coord).eraseIdx idx :: []}) :=
  ⟨by decide, by decide, by decide,
    c5_warnsdorff_selection Board.new [⟨1, 2⟩, ⟨2, 1⟩] [] (by decide) (by decide)
      (by decide)⟩

set_option maxRecDepth 200000 in
/-- C1 counterexample: `bc` replays the first tour the search finds — a
64-move legally played history.  `is_closed_tour` returns true on it, yet no
canonical knight offset takes `current` (which is (2,4)) back to the start
square (0,0): the function closes the tour against the square reached by
the FIRST move, not against the start square. -/
theorem c1_counterexample :
    bc.moves_made.length = 64 ∧ bc.is_closed_tour = some true ∧
      ¬ ∃ m ∈ knightMoves, bc.current + m = Coord.mk 0 0 :=
  ⟨by decide, by decide, by decide⟩

/-- C1 amended: for a board with a full 64-move history, `is_closed_tour`
returns true iff some canonical offset applied to `current` reaches the
square visited by the first move (which, from the fixed start (0,0), is the
coordinate equal to the first stored offset) — not the start square
itself. -/
theorem c1_closed_tour_first_square (b : Board)
    (h : b.moves_made.length = 64) :
    b.is_closed_tour = some true ↔
      ∃ m ∈ b.moves, b.current + m = b.moves_made.head?.getD ⟨0, 0⟩ := by
  have hne : b.moves_made ≠ [] := by
    intro hc
    rw [hc] at h
    simp at h
  obtain ⟨fst, hh⟩ : ∃ fst, b.moves_made.head? = some fst := by
    cases hmm2 : b.moves_made with
    | nil => exact absurd hmm2 hne
    | cons a l => exact ⟨a, rfl⟩
  rw [is_closed_tour_cons hh, hh]
  simp only [Option.getD_some, Option.some.injEq]
  constructor
  · intro hany
    obtain ⟨m, hm, hbeq⟩ := List.any_eq_true.mp hany
    exact ⟨m, hm, eq_of_beq hbeq⟩
  · rintro ⟨m, hm, heq⟩
    exact List.any_eq_true.mpr ⟨m, hm, beq_iff_eq.mpr heq⟩

set_option maxRecDepth 200000 in
theorem c1_closed_tour_first_square_witness :
    bc.moves_made.length = 64 ∧
      (bc.is_closed_tour = some true ↔
        ∃ m ∈ bc.moves, bc.current + m = bc.moves_made.head?.getD ⟨0, 0⟩) :=
  ⟨by decide, c1_closed_tour_first_square bc (by decide)⟩

set_option maxRecDepth 200000 in
/-- C2 counterexample: the tour the loop actually emits on iteration 80 ends
at (2,4); no knight offset takes (2,4) back to the start square (0,0), so an
emitted tour violates the claim's closing condition. -/
theorem c2_counterexample :
    ∃ n, ∃ t ∈ emitted true n Board.new,
      ¬ ∃ m ∈ knightMoves, endPos ⟨0, 0⟩ t + m = Coord.mk 0 0 :=
  ⟨80, tour0, tour0_mem, by decide⟩

/-- C2 amended: every tour the search loop emits is an ordered sequence of
exactly 64 canonical knight offsets whose cumulative sums from (0,0) are 64
distinct on-board squares, each reached by a canonical knight offset from
the previous one, and the position after the 64th offset is one knight move
away from the FIRST visited square (the square whose coordinate equals the
first offset) — not from (0,0). -/
theorem c2_emitted_tours (n : Nat) (t : List Coord)
    (ht : t ∈ emitted true n Board.new) :
    t.length = 64 ∧ (∀ c ∈ t, c ∈ knightMoves) ∧
      (positions ⟨0, 0⟩ t).Nodup ∧
      (∀ p ∈ positions ⟨0, 0⟩ t, Board.is_on_board p = true) ∧
      (∃ m ∈ knightMoves, endPos ⟨0, 0⟩ t + m = t.head?.getD ⟨0, 0⟩) :=
  emitted_sound n Board.new invB_new t ht

set_option maxRecDepth 200000 in
theorem c2_emitted_tours_witness :
    tour0 ∈ emitted true 80 Board.new ∧
      (tour0.length = 64 ∧ (∀ c ∈ tour0, c ∈ knightMoves) ∧
        (positions ⟨0, 0⟩ tour0).Nodup ∧
        (∀ p ∈ positions ⟨0, 0⟩ tour0, Board.is_on_board p = true) ∧
        (∃ m ∈ knightMoves, endPos ⟨0, 0⟩ tour0 + m = tour0.head?.getD ⟨0, 0⟩)) :=
  ⟨tour0_mem, c2_emitted_tours 80 tour0 tour0_mem⟩

set_option maxRecDepth 200000 in
/-- C3: the send on the output channel is `unwrap`ped in the source.  On the
board `cSend`, one legal move away from completing the first closed tour,
the iteration that finishes the tour panics (`Fault.sendFail`) when the
receiver is gone, instead of stopping the search as a recoverable
condition; with a live receiver the same iteration emits the tour
normally. -/
theorem c3_send_failure_panics :
    step false cSend = .fault .sendFail ∧
      step true cSend ≠ .fault .sendFail ∧ step false cSend ≠ .stopped :=
  ⟨by decide, by decide, by decide⟩

/-- C4 counterexample: run with a live receiver from the freshly
constructed board, the loop does reach the empty-history rollback fault:
the search tree is finite, the loop can never take the `Stop` exit (the
stack is never empty before the fault), so after finitely many iterations
the root candidate list empties and `rollback()` is called with an empty
history. -/
theorem c4_counterexample :
    ∃ k, iterB true k Board.new = .error Fault.rollbackEmpty :=
  exhaust (measureB Board.new) Board.new le_rfl invB_new

/-- C4 amended: in every reachable state in which the derived action is
`Rollback`, the history is non-empty provided the candidate stack still
holds at least two levels; the guarantee fails exactly at the root level,
where the empty-history fault is eventually reached. -/
theorem c4_rollback_above_root (n : Nat) (b : Board)
    (hreach : iterB true n Board.new = .ok b) :
    ¬ b.get_action = .Rollback ∨ b.moves_to_make.length ≤ 1 ∨
      b.moves_made ≠ [] := by
  have hInv := iterB_ok_invB n Board.new b invB_new hreach
  have h2 := hInv.2.1
  by_cases hl : b.moves_to_make.length ≤ 1
  · exact Or.inr (Or.inl hl)
  · refine Or.inr (Or.inr ?_)
    intro hc
    rw [hc] at h2
    simp at h2
    omega

theorem c4_rollback_above_root_witness :
    iterB true 0 Board.new = .ok Board.new ∧
      (¬ Board.new.get_action = .Rollback ∨
        Board.new.moves_to_make.length ≤ 1 ∨ Board.new.moves_made ≠ []) :=
  ⟨rfl, c4_rollback_above_root 0 Board.new rfl⟩
